import Mathlib

/-!
Verification of the schema-driven environment validation engine
(`src/lib/env.ts`, class `Env`): a shallow embedding of the rule model,
the coercion engine `validateValue`, and the resolution driver
`parseAndValidate`, together with theorems about the behaviours the
specification describes.

Modelling conventions:
* JavaScript numbers are modelled as exact rationals (`ℚ`).  All numeric
  literals reached by the claims are exactly representable, and the
  decimal grammars parsed by the engine are evaluated exactly; IEEE-754
  rounding is not modelled.  `Number.isFinite` is modelled by comparison
  with `2 ^ 1024`, the magnitude at which doubles overflow to infinity.
* Strings are Lean `String`s; `String.trim` stands for the JavaScript
  `trim` (both strip the common ASCII whitespace reached by the claims).
* Thrown `Error`s are modelled as a structured value carrying the `path`
  that the source interpolates into every message together with a tag
  identifying the throw site.
-/

namespace EnvTs

/-- JavaScript runtime values that can reach the coercion engine: the raw
environment strings, schema default values, and JSON-parsed data. -/
inductive JSValue where
  | str (s : String)
  | num (q : ℚ)
  | boolean (b : Bool)
  | null
  | arr (elems : List JSValue)
  deriving Repr

/-- Numeric value of a list of decimal digit characters. -/
def digitsVal (l : List Char) : ℕ :=
  l.foldl (fun a c => a * 10 + (c.toNat - 48)) 0

/-- Characters allowed in the numeric body of the duration/bytes grammars. -/
def isNumChar (c : Char) : Bool := c == '-' || c == '.' || c.isDigit

/-- Parser for the regex fragment `\d+(\.\d+)?|\.\d+` used by the
`duration` and `bytes` grammars (exact rational value). -/
def parseUnsignedDec (l : List Char) : Option ℚ :=
  match l.dropWhile Char.isDigit with
  | [] =>
      if (l.takeWhile Char.isDigit).isEmpty then none
      else some (digitsVal (l.takeWhile Char.isDigit) : ℚ)
  | '.' :: frac =>
      if frac.isEmpty || !(frac.all Char.isDigit) then none
      else some ((digitsVal (l.takeWhile Char.isDigit) : ℚ) +
        (digitsVal frac : ℚ) / ((10 : ℚ) ^ frac.length))
  | _ => none

/-- Parser for the regex fragment `-?(\d+(\.\d+)?|\.\d+)`. -/
def parseSignedDec : List Char → Option ℚ
  | '-' :: rest => (parseUnsignedDec rest).map Neg.neg
  | l => parseUnsignedDec l

/-- JavaScript decimal-literal mantissa, `\d+\.?\d*|\.\d+` (`Number`
accepts a trailing point, unlike the duration/bytes grammars). -/
def parseJsMantissa (l : List Char) : Option ℚ :=
  match l.dropWhile Char.isDigit with
  | [] =>
      if (l.takeWhile Char.isDigit).isEmpty then none
      else some (digitsVal (l.takeWhile Char.isDigit) : ℚ)
  | '.' :: frac =>
      if !(frac.all Char.isDigit) then none
      else if (l.takeWhile Char.isDigit).isEmpty && frac.isEmpty then none
      else some ((digitsVal (l.takeWhile Char.isDigit) : ℚ) +
        (digitsVal frac : ℚ) / ((10 : ℚ) ^ frac.length))
  | _ => none

/-- Exponent part of a JavaScript decimal literal: `[+-]?\d+`. -/
def parseExpPart : List Char → Option ℤ
  | '+' :: ds => if !ds.isEmpty && ds.all Char.isDigit then some (digitsVal ds : ℤ) else none
  | '-' :: ds => if !ds.isEmpty && ds.all Char.isDigit then some (-(digitsVal ds : ℤ)) else none
  | ds => if !ds.isEmpty && ds.all Char.isDigit then some (digitsVal ds : ℤ) else none

/-- JavaScript decimal literal with optional exponent. -/
def jsDecNumber (l : List Char) : Option ℚ :=
  let isExpChar : Char → Bool := fun c => c == 'e' || c == 'E'
  let mant := l.takeWhile (fun c => !(isExpChar c))
  match l.dropWhile (fun c => !(isExpChar c)) with
  | [] => parseJsMantissa mant
  | _ :: rest => do
      let m ← parseJsMantissa mant
      let e ← parseExpPart rest
      pure (m * (10 : ℚ) ^ e)

/-- Optionally signed JavaScript decimal literal. -/
def jsSignedDec : List Char → Option ℚ
  | '+' :: rest => jsDecNumber rest
  | '-' :: rest => (jsDecNumber rest).map Neg.neg
  | l => jsDecNumber l

/-- Value of a hexadecimal digit character. -/
def hexVal (c : Char) : Option ℕ :=
  if c.isDigit then some (c.toNat - 48)
  else if 'a' ≤ c ∧ c ≤ 'f' then some (c.toNat - 87)
  else if 'A' ≤ c ∧ c ≤ 'F' then some (c.toNat - 55)
  else none

/-- Digits of a bounded radix folded into a value; fails on an alien digit. -/
def radixVal (base : ℕ) (l : List Char) : Option ℕ :=
  l.foldl
    (fun acc c => do
      let a ← acc
      let d ← hexVal c
      if d < base then pure (a * base + d) else none)
    (some 0)

/-- Model of the JavaScript `Number(s)` conversion on an already-trimmed,
non-empty string: decimal literals with optional sign and exponent, plus
the unsigned `0x`/`0o`/`0b` radix forms.  `none` stands for `NaN`; the
`Infinity` literal is outside the finite-double model and also maps to
`none`. -/
def jsNumber (s : String) : Option ℚ :=
  match s.data with
  | '0' :: x :: rest =>
      if x == 'x' || x == 'X' then
        if rest.isEmpty then none else (radixVal 16 rest).map (fun n => (n : ℚ))
      else if x == 'o' || x == 'O' then
        if rest.isEmpty then none else (radixVal 8 rest).map (fun n => (n : ℚ))
      else if x == 'b' || x == 'B' then
        if rest.isEmpty then none else (radixVal 2 rest).map (fun n => (n : ℚ))
      else jsSignedDec ('0' :: x :: rest)
  | l => jsSignedDec l

/-- `Number.isFinite` in the exact-rational model: doubles overflow to
infinity at magnitude `2 ^ 1024`, so `q` is finite when `|q| < 2 ^ 1024`,
phrased over the numerator and denominator for fast kernel evaluation. -/
def jsFinite (q : ℚ) : Bool := q.num.natAbs < 2 ^ 1024 * q.den

/-- `Number.isInteger` on a finite rational. -/
def jsIsInteger (q : ℚ) : Bool := q.den == 1

/-- One tag per `throw` site of the engine (the source interpolates the
path and the offending value into a message; the constant part of each
message is abstracted by a tag). -/
inductive ErrKind where
  | missingRequired
  | expectedString
  | patternMismatch
  | stringTooShort
  | stringTooLong
  | expectedNumber
  | expectedInteger
  | expectedPositive
  | expectedNegative
  | numBelowMin
  | numAboveMax
  | numOutOfRange
  | expectedJsonArrayStart
  | invalidJsonArray
  | expectedArray
  | expectedList
  | listNotUnique
  | expectedDuration
  | durationFormat
  | durationNotFinite
  | durationBelowMin
  | durationAboveMax
  | expectedBytes
  | bytesFormat
  | bytesNotFinite
  | bytesNotWhole
  | bytesNegative
  | bytesBelowMin
  | bytesAboveMax
  | invalidPort
  | secretTooShort
  | secretTooLong
  | secretClasses
  deriving Repr, DecidableEq

/-- A thrown validation `Error`: the path interpolated into the message
(`[path] ...`, or the key for the missing-required message) plus the tag
of the throw site. -/
structure VError where
  path : String
  kind : ErrKind
  deriving Repr, DecidableEq

/-- The three numeric rule tags that share the `number`/`int`/`float`
branch of `validateValue`. -/
inductive NumKind where
  | number
  | int
  | float
  deriving Repr, DecidableEq

/-- The rule model (`ValidationRule` in `src/lib/types.ts`), restricted to
the rule kinds the claims exercise.  `required`/`defaultValue` are the
`IBaseRule` fields; absent optional fields are `none`.  A `pattern` is
modelled by its match predicate (`raw.search(pattern) !== -1`).  The
`secret` kind is declared in `ISecretRule` (`types.ts`) and exercised by
the test-suite; see `validateSecret` below for its modelling. -/
inductive VRule where
  | str (required : Option Bool) (defaultValue : Option JSValue) (trim : Option Bool)
      (pattern : Option (String → Bool)) (minLength : Option ℚ) (maxLength : Option ℚ)
  | num (kind : NumKind) (required : Option Bool) (defaultValue : Option JSValue)
      (positive : Option Bool) (negative : Option Bool)
      (min : Option ℚ) (max : Option ℚ) (range : Option (ℚ × ℚ))
  | duration (required : Option Bool) (defaultValue : Option JSValue)
      (minMs : Option ℚ) (maxMs : Option ℚ)
  | bytes (required : Option Bool) (defaultValue : Option JSValue)
      (min : Option ℚ) (max : Option ℚ)
  | arr (itemType : VRule) (required : Option Bool) (defaultValue : Option JSValue)
  | list (itemType : VRule) (required : Option Bool) (defaultValue : Option JSValue)
      (separator : Option String) (trim : Option Bool) (unique : Option Bool)
  | port (required : Option Bool) (defaultValue : Option JSValue)
  | secret (required : Option Bool) (defaultValue : Option JSValue)
      (minLength : Option ℚ) (maxLength : Option ℚ) (minClasses : Option ℚ)

/-- The `required` field shared by every rule (`IBaseRule.required`). -/
def VRule.requiredOpt : VRule → Option Bool
  | .str r _ _ _ _ _ => r
  | .num _ r _ _ _ _ _ _ => r
  | .duration r _ _ _ => r
  | .bytes r _ _ _ => r
  | .arr _ r _ => r
  | .list _ r _ _ _ _ => r
  | .port r _ => r
  | .secret r _ _ _ _ => r

/-- The `defaultValue` field shared by every rule (`IBaseRule.defaultValue`). -/
def VRule.defaultValueOpt : VRule → Option JSValue
  | .str _ d _ _ _ _ => d
  | .num _ _ d _ _ _ _ _ => d
  | .duration _ d _ _ => d
  | .bytes _ d _ _ => d
  | .arr _ _ d => d
  | .list _ _ d _ _ _ => d
  | .port _ d => d
  | .secret _ d _ _ _ => d

/-- JavaScript `String.prototype.split` with a string separator: the empty
separator splits into single characters, otherwise split on every
occurrence (`String.splitOn` has exactly those semantics). -/
def jsSplit (s : String) (sep : String) : List String :=
  if sep = "" then s.data.map Char.toString else s.splitOn sep

/-- JavaScript `SameValueZero`, the equality used by `Set`: primitive
values compare by value, while two (freshly built) arrays are distinct
object references and never equal. -/
def jsSameValueZero : JSValue → JSValue → Bool
  | .str a, .str b => a == b
  | .num a, .num b => a == b
  | .boolean a, .boolean b => a == b
  | .null, .null => true
  | _, _ => false

/-- `new Set(parsedList).size !== parsedList.length`: some element of the
list repeats an earlier element under `SameValueZero`. -/
def hasDuplicate (l : List JSValue) : Bool :=
  !(decide (l.Pairwise fun a b => jsSameValueZero a b = false))

/-- The duration multiplier table `{ms: 1, s: 1000, m: 60000, h: 3600000}`
together with the `unit = 'ms'` default for a missing suffix. -/
def durationMultiplier : String → Option ℚ
  | "" => some 1
  | "ms" => some 1
  | "s" => some 1000
  | "m" => some 60000
  | "h" => some 3600000
  | _ => none

/-- The byte-size multiplier table (powers of 1000 for decimal units,
powers of 1024 for the binary `*ib` units) with the `unit = 'b'` default. -/
def bytesMultiplier : String → Option ℚ
  | "" => some 1
  | "b" => some 1
  | "kb" => some 1000
  | "mb" => some 1000000
  | "gb" => some 1000000000
  | "tb" => some 1000000000000
  | "kib" => some 1024
  | "mib" => some 1048576
  | "gib" => some 1073741824
  | "tib" => some 1099511627776
  | _ => none

/-- Match of `^(-?(?:\d+(?:\.\d+)?|\.\d+))(ms|s|m|h)?$` on the trimmed,
lower-cased duration string, already multiplied by the unit table: the
maximal numeric-character prefix is the captured number (the unit names
contain no numeric characters) and the remainder must be a unit. -/
def parseDurationString (t : String) : Option ℚ := do
  let v ← parseSignedDec (t.data.takeWhile isNumChar)
  let mult ← durationMultiplier (String.mk (t.data.dropWhile isNumChar))
  pure (v * mult)

/-- Match of `^(-?(?:\d+(?:\.\d+)?|\.\d+))\s*(b|kb|mb|gb|tb|kib|mib|gib|tib)?$`
on the trimmed, lower-cased byte-size string, multiplied by the unit
table; the `\s*` gap is the whitespace between the numeric prefix and the
unit. -/
def parseBytesString (t : String) : Option ℚ := do
  let v ← parseSignedDec (t.data.takeWhile isNumChar)
  let mult ← bytesMultiplier (String.mk ((t.data.dropWhile isNumChar).dropWhile Char.isWhitespace))
  pure (v * mult)

/-- JSON insignificant whitespace. -/
def jsonWs (l : List Char) : List Char :=
  l.dropWhile (fun c => ([' ', '\t', '\n', '\r'] : List Char).contains c)

/-- Characters a JSON number token may contain. -/
def isJsonNumChar (c : Char) : Bool :=
  c.isDigit || c == '-' || c == '+' || c == '.' || c == 'e' || c == 'E'

/-- One-character escapes of a JSON string literal. -/
def jsonEscChar (e : Char) : Option Char :=
  if e == '"' || e == '\\' || e == '/' then some e
  else if e == 'n' then some '\n'
  else if e == 't' then some '\t'
  else if e == 'r' then some '\r'
  else if e == 'b' then some (Char.ofNat 8)
  else if e == 'f' then some (Char.ofNat 12)
  else none

mutual

/-- Recursive-descent JSON value parser (fuelled): strings, numbers,
booleans, `null` and nested arrays, which is all the data that can reach
the recursively validated items of an `array` rule in this model; object
literals are outside the model of the platform `JSON.parse`. -/
def parseJsonValue : ℕ → List Char → Option (JSValue × List Char)
  | 0, _ => none
  | fuel + 1, l =>
    match jsonWs l with
    | '[' :: rest =>
        match jsonWs rest with
        | ']' :: rest2 => some (.arr [], rest2)
        | rest2 =>
            match parseJsonElems fuel rest2 with
            | some (vs, rest3) => some (.arr vs, rest3)
            | none => none
    | '"' :: rest =>
        match parseJsonStringBody fuel rest with
        | some (cs, rest2) => some (.str (String.mk cs), rest2)
        | none => none
    | 't' :: 'r' :: 'u' :: 'e' :: rest => some (.boolean true, rest)
    | 'f' :: 'a' :: 'l' :: 's' :: 'e' :: rest => some (.boolean false, rest)
    | 'n' :: 'u' :: 'l' :: 'l' :: rest => some (.null, rest)
    | l2 =>
        let tok := l2.takeWhile isJsonNumChar
        if tok.isEmpty then none
        else
          match jsSignedDec tok with
          | some q => some (.num q, l2.dropWhile isJsonNumChar)
          | none => none

/-- Comma-separated JSON array elements up to the closing bracket. -/
def parseJsonElems : ℕ → List Char → Option (List JSValue × List Char)
  | 0, _ => none
  | fuel + 1, l =>
    match parseJsonValue fuel l with
    | none => none
    | some (v, rest) =>
        match jsonWs rest with
        | ',' :: rest2 =>
            match parseJsonElems fuel rest2 with
            | some (vs, rest3) => some (v :: vs, rest3)
            | none => none
        | ']' :: rest2 => some ([v], rest2)
        | _ => none

/-- Body of a JSON string literal after the opening quote. -/
def parseJsonStringBody : ℕ → List Char → Option (List Char × List Char)
  | 0, _ => none
  | fuel + 1, l =>
    match l with
    | '"' :: rest => some ([], rest)
    | '\\' :: 'u' :: a :: b :: c :: d :: rest => do
        let va ← hexVal a
        let vb ← hexVal b
        let vc ← hexVal c
        let vd ← hexVal d
        let (cs, rest2) ← parseJsonStringBody fuel rest
        pure (Char.ofNat (((va * 16 + vb) * 16 + vc) * 16 + vd) :: cs, rest2)
    | '\\' :: e :: rest => do
        let c ← jsonEscChar e
        let (cs, rest2) ← parseJsonStringBody fuel rest
        pure (c :: cs, rest2)
    | c :: rest => do
        let (cs, rest2) ← parseJsonStringBody fuel rest
        pure (c :: cs, rest2)
    | [] => none

end

/-- Model of the platform `JSON.parse` used by the `array` rule: parse one
JSON value and allow only trailing whitespace. -/
def jsonParse (s : String) : Option JSValue :=
  match parseJsonValue (2 * s.data.length + 2) s.data with
  | some (v, rest) => if (jsonWs rest).isEmpty then some v else none
  | none => none

/-- `v < (bound ?? -Infinity)`: the lower-bound test the source writes
with a `?? -Infinity` default. -/
def belowOpt (bound : Option ℚ) (v : ℚ) : Bool :=
  match bound with
  | some m => decide (v < m)
  | none => false

/-- `v > (bound ?? +Infinity)`: the upper-bound test the source writes
with a `?? +Infinity` default. -/
def aboveOpt (bound : Option ℚ) (v : ℚ) : Bool :=
  match bound with
  | some m => decide (v > m)
  | none => false

/-- Lowercase class of the `secret` rule. -/
def isLowerClass (c : Char) : Bool := 'a' ≤ c && c ≤ 'z'

/-- Uppercase class of the `secret` rule. -/
def isUpperClass (c : Char) : Bool := 'A' ≤ c && c ≤ 'Z'

/-- Digit class of the `secret` rule. -/
def isDigitClass (c : Char) : Bool := '0' ≤ c && c ≤ '9'

/-- Symbol class of the `secret` rule: anything outside the other three
classes. -/
def isSymbolClass (c : Char) : Bool := !(isLowerClass c || isUpperClass c || isDigitClass c)

/-- Number of distinct character classes present among lowercase,
uppercase, digit and symbol. -/
def secretClassCount (s : String) : ℕ :=
  (if s.data.any isLowerClass then 1 else 0) +
  (if s.data.any isUpperClass then 1 else 0) +
  (if s.data.any isDigitClass then 1 else 0) +
  (if s.data.any isSymbolClass then 1 else 0)

/-- Modelled from the spec: the `secret` branch of the coercion engine is
missing from `src/lib/env.ts` — only its declaration (`ISecretRule` in
`src/lib/types.ts`) and its tests (`Env.schema.secret({...})` in the
vitest suite) are in the tree.  Following the spec table: the raw value
must be a string, the inclusive `minLength`/`maxLength` bounds are
enforced, then the count of distinct character classes present among
lowercase, uppercase, digit and symbol must reach `minClasses`, and the
string is returned unchanged. -/
def validateSecret (minLength maxLength minClasses : Option ℚ)
    (raw : JSValue) (path : String) : Except VError JSValue :=
  match raw with
  | .str s =>
      if belowOpt minLength (s.length : ℚ) then .error ⟨path, .secretTooShort⟩
      else if aboveOpt maxLength (s.length : ℚ) then .error ⟨path, .secretTooLong⟩
      else if decide ((secretClassCount s : ℚ) < minClasses.getD 0) then
        .error ⟨path, .secretClasses⟩
      else .ok (.str s)
  | _ => .error ⟨path, .expectedString⟩

/-- `arr.map((item, i) => this.validateValue(itemRule, item, path + "[" + i + "]"))`
for a fixed item-coercion function `f`, with the fail-fast propagation of
the first thrown item error. -/
def validateItems (f : JSValue → String → Except VError JSValue) :
    ℕ → List JSValue → String → Except VError (List JSValue)
  | _, [], _ => .ok []
  | i, x :: xs, path => do
    let v ← f x (path ++ "[" ++ toString i ++ "]")
    let vs ← validateItems f (i + 1) xs path
    pure (v :: vs)

/-- The optional pre-validation trim of the `string` rule
(`if (rule.trim) raw = raw.trim()`). -/
def effectiveStr (trim : Option Bool) (s0 : String) : String :=
  if trim == some true then s0.trim else s0

/-- The numeric-parsing prologue of the `number`/`int`/`float` branch:
a number passes through, a string is trimmed, rejected when empty, and
converted with `Number`, and any other runtime type is rejected. -/
def parseNumRaw (raw : JSValue) (path : String) : Except VError ℚ :=
  match raw with
  | .num q => .ok q
  | .str s =>
      if s.trim = "" then .error ⟨path, .expectedNumber⟩
      else
        match jsNumber s.trim with
        | none => .error ⟨path, .expectedNumber⟩
        | some q => .ok q
  | _ => .error ⟨path, .expectedNumber⟩

/-- The parsing prologue of the `duration` branch: a number passes
through, a string is trimmed and lower-cased, rejected when empty, and
matched against the duration grammar. -/
def parseDurationRaw (raw : JSValue) (path : String) : Except VError ℚ :=
  match raw with
  | .num q => .ok q
  | .str s =>
      if s.trim.toLower = "" then .error ⟨path, .expectedDuration⟩
      else
        match parseDurationString s.trim.toLower with
        | none => .error ⟨path, .durationFormat⟩
        | some q => .ok q
  | _ => .error ⟨path, .expectedDuration⟩

/-- The parsing prologue of the `bytes` branch. -/
def parseBytesRaw (raw : JSValue) (path : String) : Except VError ℚ :=
  match raw with
  | .num q => .ok q
  | .str s =>
      if s.trim.toLower = "" then .error ⟨path, .expectedBytes⟩
      else
        match parseBytesString s.trim.toLower with
        | none => .error ⟨path, .bytesFormat⟩
        | some q => .ok q
  | _ => .error ⟨path, .expectedBytes⟩

/-- The item-collection prologue of the `list` branch: a string is split
on the separator (default comma) with per-item trim unless disabled, an
array passes through, anything else is rejected. -/
def splitListRaw (separator : Option String) (trim : Option Bool) (raw : JSValue)
    (path : String) : Except VError (List JSValue) :=
  match raw with
  | .str s =>
      if !(trim == some false) then
        .ok ((jsSplit s (separator.getD ",")).map (fun x => JSValue.str x.trim))
      else .ok ((jsSplit s (separator.getD ",")).map JSValue.str)
  | .arr l => .ok l
  | _ => .error ⟨path, .expectedList⟩

/-- The numeric prologue of the `port` branch; `none` stands for the
`NaN` that the source feeds into the range test. -/
def parsePortRaw (raw : JSValue) : Option ℚ :=
  match raw with
  | .num q => some q
  | .str s => if s.trim = "" then none else jsNumber s.trim
  | _ => none

/-- The coercion engine `validateValue(rule, raw, path)` of
`src/lib/env.ts`, dispatching on the rule tag and recursing into itself
for the items of composite rules. -/
def validateValue : VRule → JSValue → String → Except VError JSValue
  | .str _ _ trim pattern minLength maxLength, raw, path =>
      match raw with
      | .str s0 =>
          if pattern.elim false (fun p => !(p (effectiveStr trim s0))) then
            .error ⟨path, .patternMismatch⟩
          else if belowOpt minLength ((effectiveStr trim s0).length : ℚ) then
            .error ⟨path, .stringTooShort⟩
          else if aboveOpt maxLength ((effectiveStr trim s0).length : ℚ) then
            .error ⟨path, .stringTooLong⟩
          else .ok (.str (effectiveStr trim s0))
      | _ => .error ⟨path, .expectedString⟩
  | .num kind _ _ positive negative mn mx range, raw, path =>
      match parseNumRaw raw path with
      | .error e => .error e
      | .ok n =>
          if kind == .int && !(jsIsInteger n) then .error ⟨path, .expectedInteger⟩
          else if positive == some true && decide (n < 0) then .error ⟨path, .expectedPositive⟩
          else if negative == some true && decide (n > 0) then .error ⟨path, .expectedNegative⟩
          else if belowOpt mn n then .error ⟨path, .numBelowMin⟩
          else if aboveOpt mx n then .error ⟨path, .numAboveMax⟩
          else if range.elim false (fun r => decide (n < r.1) || decide (n > r.2)) then
            .error ⟨path, .numOutOfRange⟩
          else .ok (.num n)
  | .duration _ _ minMs maxMs, raw, path =>
      match parseDurationRaw raw path with
      | .error e => .error e
      | .ok d =>
          if !(jsFinite d) then .error ⟨path, .durationNotFinite⟩
          else if belowOpt minMs d then .error ⟨path, .durationBelowMin⟩
          else if aboveOpt maxMs d then .error ⟨path, .durationAboveMax⟩
          else .ok (.num d)
  | .bytes _ _ mn mx, raw, path =>
      match parseBytesRaw raw path with
      | .error e => .error e
      | .ok b =>
          if !(jsFinite b) then .error ⟨path, .bytesNotFinite⟩
          else if !(jsIsInteger b) then .error ⟨path, .bytesNotWhole⟩
          else if decide (b < 0) then .error ⟨path, .bytesNegative⟩
          else if decide (b < mn.getD 0) then .error ⟨path, .bytesBelowMin⟩
          else if aboveOpt mx b then .error ⟨path, .bytesAboveMax⟩
          else .ok (.num b)
  | .arr itemType _ _, raw, path =>
      match raw with
      | .str s =>
          if s.trim = "" then .ok (.arr [])
          else if !(s.trim.startsWith "[") then .error ⟨path, .expectedJsonArrayStart⟩
          else
            match jsonParse s.trim with
            | some (.arr items) =>
                (validateItems (validateValue itemType) 0 items path).map JSValue.arr
            | _ => .error ⟨path, .invalidJsonArray⟩
      | .arr items => (validateItems (validateValue itemType) 0 items path).map JSValue.arr
      | _ => .error ⟨path, .expectedArray⟩
  | .list itemType _ _ separator trim unique, raw, path =>
      match splitListRaw separator trim raw path with
      | .error e => .error e
      | .ok items =>
          match validateItems (validateValue itemType) 0 items path with
          | .error e => .error e
          | .ok parsedList =>
              if unique == some true && hasDuplicate parsedList then
                .error ⟨path, .listNotUnique⟩
              else .ok (.arr parsedList)
  | .port _ _, raw, path =>
      match parsePortRaw raw with
      | none => .error ⟨path, .invalidPort⟩
      | some n =>
          if !(jsIsInteger n) || decide (n < 0) || decide (n > 65535) then
            .error ⟨path, .invalidPort⟩
          else .ok (.num n)
  | .secret _ _ mnl mxl mnc, raw, path => validateSecret mnl mxl mnc raw path

/-- Resolution of a schema entry whose raw value is missing (`undefined`
or the empty string): the required/default branch of `parseAndValidate`.
`.ok none` means no value is stored for the key. -/
def resolveMissing (key : String) (rule : VRule) : Except VError (Option JSValue) :=
  if !(rule.requiredOpt == some false) && rule.defaultValueOpt.isNone then
    .error ⟨key, .missingRequired⟩
  else
    match rule.defaultValueOpt with
    | some d => (validateValue rule d key).map some
    | none => .ok none

/-- Resolution of one schema entry `(key, rule)` against the raw source:
lines 76–94 of `parseAndValidate` in `src/lib/env.ts`. -/
def resolveEntry (key : String) (rule : VRule) (env : String → Option String) :
    Except VError (Option JSValue) :=
  match env key with
  | none => resolveMissing key rule
  | some s => if s = "" then resolveMissing key rule else (validateValue rule (.str s) key).map some

/-- The resolution driver `parseAndValidate`: schema entries are visited
in declaration order, each resolved value is stored under its key, and
the first thrown error aborts the remaining entries. -/
def parseAndValidate : List (String × VRule) → (String → Option String) →
    Except VError (List (String × JSValue))
  | [], _ => .ok []
  | (key, rule) :: rest, env =>
      match resolveEntry key rule env with
      | .error e => .error e
      | .ok v? =>
          match parseAndValidate rest env with
          | .error e => .error e
          | .ok tail => .ok (match v? with | some v => (key, v) :: tail | none => tail)

/-- The lookup surface `get(key)`: a pure read of the assembled mapping
(`this.values.get(key)`), yielding `none` when the key holds no value. -/
def lookupValue (m : List (String × JSValue)) (key : String) : Option JSValue :=
  (m.find? (fun e => e.1 == key)).map (fun e => e.2)

/-- Spec-side semantics of the decimal fragment `\d+(\.\d+)?|\.\d+` of the
duration/bytes grammars, as a relation between a character list and its
exact value. -/
inductive UnsignedDecVal : List Char → ℚ → Prop where
  | intOnly (ds : List Char) (hne : ds ≠ []) (hd : ds.all Char.isDigit) :
      UnsignedDecVal ds (digitsVal ds)
  | intFrac (ds fs : List Char) (hne : ds ≠ []) (hd : ds.all Char.isDigit)
      (hfne : fs ≠ []) (hf : fs.all Char.isDigit) :
      UnsignedDecVal (ds ++ '.' :: fs)
        ((digitsVal ds : ℚ) + (digitsVal fs : ℚ) / (10 : ℚ) ^ fs.length)
  | fracOnly (fs : List Char) (hfne : fs ≠ []) (hf : fs.all Char.isDigit) :
      UnsignedDecVal ('.' :: fs) ((digitsVal fs : ℚ) / (10 : ℚ) ^ fs.length)

/-- Spec-side semantics of the signed fragment `-?(\d+(\.\d+)?|\.\d+)`. -/
def SignedDecVal (l : List Char) (v : ℚ) : Prop :=
  UnsignedDecVal l v ∨ ∃ l' v', l = '-' :: l' ∧ UnsignedDecVal l' v' ∧ v = -v'

/-- The unit table of the spec grammar `^(-?number)(ms|s|m|h)?$`: the fixed
multipliers together with the missing unit defaulting to `ms`. -/
def durationUnitTable : List (String × ℚ) :=
  [("ms", 1), ("s", 1000), ("m", 60000), ("h", 3600000), ("", 1)]

/-- The duration grammar exactly as the spec states it: the trimmed,
lower-cased string decomposes into a signed decimal number followed by an
optional unit, and the value is the number multiplied by the unit's fixed
multiplier. -/
def DurationGrammar (t : String) (q : ℚ) : Prop :=
  ∃ (body : List Char) (u : String) (m v : ℚ),
    t.data = body ++ u.data ∧ (u, m) ∈ durationUnitTable ∧ SignedDecVal body v ∧ q = v * m

/-- The unit table of the spec grammar
`^(-?number)\s*(b|kb|mb|gb|tb|kib|mib|gib|tib)?$`: decimal units are
powers of 1000, the binary `*ib` units powers of 1024, and the missing
unit defaults to bytes. -/
def bytesUnitTable : List (String × ℚ) :=
  [("b", 1), ("kb", 1000), ("mb", 1000000), ("gb", 1000000000), ("tb", 1000000000000),
    ("kib", 1024), ("mib", 1048576), ("gib", 1073741824), ("tib", 1099511627776), ("", 1)]

/-- The byte-size grammar exactly as the spec states it: a signed decimal
number, optional whitespace, and an optional unit from the table. -/
def BytesGrammar (t : String) (q : ℚ) : Prop :=
  ∃ (body ws : List Char) (u : String) (m v : ℚ),
    t.data = body ++ ws ++ u.data ∧ ws.all Char.isWhitespace ∧ (u, m) ∈ bytesUnitTable ∧
    SignedDecVal body v ∧ q = v * m


lemma all_takeWhile (p : Char → Bool) (l : List Char) : (l.takeWhile p).all p = true := by
  induction l with
  | nil => rfl
  | cons x xs ih => by_cases h : p x <;> simp [List.takeWhile_cons, h, ih]

lemma takeWhile_append_of_all {p : Char → Bool} {xs : List Char} (h : xs.all p = true)
    (ys : List Char) : (xs ++ ys).takeWhile p = xs ++ ys.takeWhile p := by
  induction xs with
  | nil => simp
  | cons x l ih =>
      simp only [List.all_cons, Bool.and_eq_true] at h
      simp [List.takeWhile_cons, h.1, ih h.2]

lemma dropWhile_append_of_all {p : Char → Bool} {xs : List Char} (h : xs.all p = true)
    (ys : List Char) : (xs ++ ys).dropWhile p = ys.dropWhile p := by
  induction xs with
  | nil => simp
  | cons x l ih =>
      simp only [List.all_cons, Bool.and_eq_true] at h
      simp [List.dropWhile_cons, h.1, ih h.2]

lemma all_mono {p q : Char → Bool} (h : ∀ c, p c = true → q c = true) {l : List Char}
    (hl : l.all p = true) : l.all q = true := by
  simp only [List.all_eq_true] at *
  exact fun c hc => h c (hl c hc)

lemma digit_isNumChar {c : Char} (h : c.isDigit = true) : isNumChar c = true := by
  simp [isNumChar, h]

lemma parseUnsignedDec_numChar {l : List Char} {v : ℚ}
    (h : parseUnsignedDec l = some v) : l.all isNumChar = true := by
  have hsplit := List.takeWhile_append_dropWhile (p := Char.isDigit) (l := l)
  have htw : (l.takeWhile Char.isDigit).all isNumChar = true :=
    all_mono (fun _ hc => digit_isNumChar hc) (all_takeWhile _ l)
  unfold parseUnsignedDec at h
  split at h
  · rename_i hd
    rw [← hsplit, hd]
    simpa using htw
  · rename_i frac hd
    rw [← hsplit, hd]
    split at h
    · exact absurd h (by simp)
    · rename_i hcond
      simp only [Bool.or_eq_true, Bool.not_eq_true', not_or, Bool.not_eq_false] at hcond
      have hfrac : frac.all isNumChar = true :=
        all_mono (fun _ hc => digit_isNumChar hc) hcond.2
      simp [List.all_append, htw, hfrac, isNumChar]
  · exact absurd h (by simp)

lemma parseSignedDec_numChar {l : List Char} {v : ℚ}
    (h : parseSignedDec l = some v) : l.all isNumChar = true := by
  match l, h with
  | '-' :: rest, h =>
      rw [parseSignedDec] at h
      rcases Option.map_eq_some'.mp h with ⟨v', hv', _⟩
      simpa [isNumChar] using parseUnsignedDec_numChar hv'
  | [], h => simp
  | c :: rest, h =>
      by_cases hc : c = '-'
      · subst hc
        rw [parseSignedDec] at h
        rcases Option.map_eq_some'.mp h with ⟨v', hv', _⟩
        simpa [isNumChar] using parseUnsignedDec_numChar hv'
      · rw [parseSignedDec.eq_def] at h
        have h' : parseUnsignedDec (c :: rest) = some v := by
          cases c; simp_all [parseSignedDec]
        exact parseUnsignedDec_numChar h'

lemma takeWhile_eq_self_of_all {p : Char → Bool} {l : List Char} (h : l.all p = true) :
    l.takeWhile p = l := by
  have h2 := takeWhile_append_of_all h ([] : List Char)
  simpa using h2

lemma dropWhile_eq_nil_of_all {p : Char → Bool} {l : List Char} (h : l.all p = true) :
    l.dropWhile p = [] := by
  have h2 := dropWhile_append_of_all h ([] : List Char)
  simpa using h2

lemma parseUnsignedDec_of_val {l : List Char} {v : ℚ} (h : UnsignedDecVal l v) :
    parseUnsignedDec l = some v := by
  cases h with
  | intOnly ds hne hd =>
      simp [parseUnsignedDec, dropWhile_eq_nil_of_all hd, takeWhile_eq_self_of_all hd,
        List.isEmpty_iff, hne]
  | intFrac ds fs hne hd hfne hf =>
      have h1 : (ds ++ '.' :: fs).takeWhile Char.isDigit = ds := by
        rw [takeWhile_append_of_all hd]
        simp [List.takeWhile_cons]
      have h2 : (ds ++ '.' :: fs).dropWhile Char.isDigit = '.' :: fs := by
        rw [dropWhile_append_of_all hd]
        simp [List.dropWhile_cons]
      simp [parseUnsignedDec, h1, h2, List.isEmpty_iff, hfne, hf]
  | fracOnly fs hfne hf =>
      have h1 : (('.' :: fs) : List Char).takeWhile Char.isDigit = [] := by
        simp [List.takeWhile_cons]
      have h2 : (('.' :: fs) : List Char).dropWhile Char.isDigit = '.' :: fs := by
        simp [List.dropWhile_cons]
      simp [parseUnsignedDec, h1, h2, List.isEmpty_iff, hfne, hf, digitsVal]

lemma val_of_parseUnsignedDec {l : List Char} {v : ℚ} (h : parseUnsignedDec l = some v) :
    UnsignedDecVal l v := by
  have hsplit := List.takeWhile_append_dropWhile (p := Char.isDigit) (l := l)
  have htw := all_takeWhile Char.isDigit l
  unfold parseUnsignedDec at h
  split at h
  · rename_i hd
    split at h
    · exact absurd h (by simp)
    · rename_i hemp
      have hle : l = l.takeWhile Char.isDigit := by
        conv_lhs => rw [← hsplit]
        rw [hd, List.append_nil]
      have hne : l.takeWhile Char.isDigit ≠ [] := by
        intro hc
        exact hemp (by simp [hc])
      have hv : v = (digitsVal (l.takeWhile Char.isDigit) : ℚ) := by
        simpa using h.symm
      rw [hle, hv]
      exact UnsignedDecVal.intOnly _ hne htw
  · rename_i frac hd
    split at h
    · exact absurd h (by simp)
    · rename_i hcond
      simp only [Bool.or_eq_true, Bool.not_eq_true', not_or, Bool.not_eq_false] at hcond
      have hfne : frac ≠ [] := by
        intro hc
        exact hcond.1 (by simp [hc])
      have hle : l = l.takeWhile Char.isDigit ++ '.' :: frac := by
        conv_lhs => rw [← hsplit]
        rw [hd]
      by_cases hip : l.takeWhile Char.isDigit = []
      · have hv : v = (digitsVal frac : ℚ) / (10 : ℚ) ^ frac.length := by
          rw [hip] at h
          simpa [digitsVal] using h.symm
        rw [hle, hip, hv, List.nil_append]
        exact UnsignedDecVal.fracOnly _ hfne hcond.2
      · have hv : v = (digitsVal (l.takeWhile Char.isDigit) : ℚ) +
            (digitsVal frac : ℚ) / (10 : ℚ) ^ frac.length := by
          simpa using h.symm
        rw [hle, hv]
        exact UnsignedDecVal.intFrac _ _ hip htw hfne hcond.2
  · exact absurd h (by simp)

lemma parseUnsignedDec_neg_head (rest : List Char) :
    parseUnsignedDec ('-' :: rest) = none := by
  have hd : (('-' :: rest) : List Char).dropWhile Char.isDigit = '-' :: rest := by
    simp [List.dropWhile_cons]
  rw [parseUnsignedDec.eq_def, hd]
  rfl

lemma parseSignedDec_not_neg {l : List Char} (hl : l.head? ≠ some '-') :
    parseSignedDec l = parseUnsignedDec l := by
  match l with
  | [] => rfl
  | c :: rest =>
      rw [parseSignedDec.eq_def]
      split
      · rename_i heq
        injection heq with h1 h2
        exact absurd (by rw [h1]; rfl) hl
      · rfl

lemma parseSignedDec_of_sval {l : List Char} {v : ℚ} (h : SignedDecVal l v) :
    parseSignedDec l = some v := by
  rcases h with h | ⟨l2, v2, rfl, h2, rfl⟩
  · have hu := parseUnsignedDec_of_val h
    have hnot : l.head? ≠ some '-' := by
      intro hc
      cases l with
      | nil => exact absurd hc (by simp)
      | cons c rest =>
          simp only [List.head?_cons, Option.some.injEq] at hc
          rw [hc, parseUnsignedDec_neg_head] at hu
          exact absurd hu (by simp)
    rw [parseSignedDec_not_neg hnot]
    exact hu
  · rw [parseSignedDec, parseUnsignedDec_of_val h2]
    rfl

lemma sval_of_parseSignedDec {l : List Char} {v : ℚ} (h : parseSignedDec l = some v) :
    SignedDecVal l v := by
  cases l with
  | nil => exact absurd h (by simp [parseSignedDec, parseUnsignedDec])
  | cons c rest =>
      by_cases hc : c = '-'
      · subst hc
        rw [parseSignedDec] at h
        rcases Option.map_eq_some'.mp h with ⟨v2, hv2, hneg⟩
        exact Or.inr ⟨rest, v2, rfl, val_of_parseUnsignedDec hv2, hneg.symm⟩
      · have hh : parseSignedDec (c :: rest) = parseUnsignedDec (c :: rest) := by
          apply parseSignedDec_not_neg
          simp [hc]
        exact Or.inl (val_of_parseUnsignedDec (hh ▸ h))

lemma string_mk_data (u : String) : String.mk u.data = u := rfl

lemma durationMultiplier_cases {u : String} {m : ℚ} (h : durationMultiplier u = some m) :
    (u = "" ∧ m = 1) ∨ (u = "ms" ∧ m = 1) ∨ (u = "s" ∧ m = 1000) ∨
    (u = "m" ∧ m = 60000) ∨ (u = "h" ∧ m = 3600000) := by
  unfold durationMultiplier at h
  split at h <;> simp_all

lemma takeWhile_body_unit {body tail : List Char} (hall : body.all isNumChar = true)
    (hu : tail.all (fun c => !(isNumChar c)) = true) :
    ((body ++ tail).takeWhile isNumChar = body ∧ (body ++ tail).dropWhile isNumChar = tail) := by
  rw [takeWhile_append_of_all hall, dropWhile_append_of_all hall]
  cases tail with
  | nil => simp
  | cons c cs =>
      have hc : isNumChar c = false := by
        simp only [List.all_cons, Bool.and_eq_true, Bool.not_eq_true'] at hu
        exact hu.1
      simp [List.takeWhile_cons, List.dropWhile_cons, hc]

lemma parseDurationString_build {body : List Char} {u : String} {v m : ℚ}
    (hall : body.all isNumChar = true) (hv : parseSignedDec body = some v)
    (hu : u.data.all (fun c => !(isNumChar c)) = true)
    (hmult : durationMultiplier u = some m) {t : String} (ht : t.data = body ++ u.data) :
    parseDurationString t = some (v * m) := by
  have hsplit := takeWhile_body_unit hall hu
  rw [parseDurationString, ht, hsplit.1, hsplit.2, hv, string_mk_data, hmult]
  rfl

lemma parseDurationString_iff {t : String} {q : ℚ} :
    parseDurationString t = some q ↔ DurationGrammar t q := by
  constructor
  · intro h
    rw [parseDurationString] at h
    rcases hv : parseSignedDec (t.data.takeWhile isNumChar) with _ | v <;> rw [hv] at h
    · exact absurd h (by simp)
    rcases hm : durationMultiplier (String.mk (t.data.dropWhile isNumChar)) with _ | m <;>
      rw [hm] at h
    · exact absurd h (by simp)
    have h3 : q = v * m := by
      have h4 : v * m = q := by simpa using h
      exact h4.symm
    refine ⟨t.data.takeWhile isNumChar, String.mk (t.data.dropWhile isNumChar), m, v,
      ?_, ?_, sval_of_parseSignedDec hv, h3⟩
    · rw [List.takeWhile_append_dropWhile]
    · rcases durationMultiplier_cases hm with h | h | h | h | h <;>
        (obtain ⟨h1, h2⟩ := h
         simp [durationUnitTable, h1, h2])
  · rintro ⟨body, u, m, v, ht, hmem, hsv, rfl⟩
    have hv := parseSignedDec_of_sval hsv
    have hall := parseSignedDec_numChar hv
    have hcases : (u = "ms" ∧ m = 1) ∨ (u = "s" ∧ m = 1000) ∨ (u = "m" ∧ m = 60000) ∨
        (u = "h" ∧ m = 3600000) ∨ (u = "" ∧ m = 1) := by
      simpa [durationUnitTable, Prod.ext_iff] using hmem
    rcases hcases with h | h | h | h | h <;>
      (obtain ⟨rfl, rfl⟩ := h
       exact parseDurationString_build hall hv (by decide) (by rfl) ht)
lemma whitespace_not_numChar {c : Char} (h : c.isWhitespace = true) : isNumChar c = false := by
  have h2 : c = ' ' ∨ c = '\t' ∨ c = '\r' ∨ c = '\n' := by
    simpa [Char.isWhitespace, or_assoc] using h
  rcases h2 with h2 | h2 | h2 | h2 <;> (subst h2; decide)

lemma dropWhile_eq_self_of_none {p : Char → Bool} {l : List Char}
    (h : l.all (fun c => !(p c)) = true) : l.dropWhile p = l := by
  cases l with
  | nil => rfl
  | cons c cs =>
      simp only [List.all_cons, Bool.and_eq_true, Bool.not_eq_true'] at h
      simp [List.dropWhile_cons, h.1]

lemma bytesMultiplier_cases {u : String} {m : ℚ} (h : bytesMultiplier u = some m) :
    (u = "" ∧ m = 1) ∨ (u = "b" ∧ m = 1) ∨ (u = "kb" ∧ m = 1000) ∨
    (u = "mb" ∧ m = 1000000) ∨ (u = "gb" ∧ m = 1000000000) ∨
    (u = "tb" ∧ m = 1000000000000) ∨ (u = "kib" ∧ m = 1024) ∨
    (u = "mib" ∧ m = 1048576) ∨ (u = "gib" ∧ m = 1073741824) ∨
    (u = "tib" ∧ m = 1099511627776) := by
  unfold bytesMultiplier at h
  split at h <;> simp_all

lemma parseBytesString_build {body : List Char} {ws : List Char} {u : String} {v m : ℚ}
    (hall : body.all isNumChar = true) (hv : parseSignedDec body = some v)
    (hws : ws.all Char.isWhitespace = true)
    (hu1 : u.data.all (fun c => !(isNumChar c)) = true)
    (hu2 : u.data.all (fun c => !(c.isWhitespace)) = true)
    (hmult : bytesMultiplier u = some m) {t : String} (ht : t.data = body ++ ws ++ u.data) :
    parseBytesString t = some (v * m) := by
  have htail : (ws ++ u.data).all (fun c => !(isNumChar c)) = true := by
    rw [List.all_append]
    refine Bool.and_eq_true_iff.mpr ⟨?_, hu1⟩
    exact all_mono (fun c hc => by simp [whitespace_not_numChar hc]) hws
  have hsplit := takeWhile_body_unit hall htail
  have hws2 : (ws ++ u.data).dropWhile Char.isWhitespace = u.data := by
    rw [dropWhile_append_of_all hws, dropWhile_eq_self_of_none hu2]
  rw [parseBytesString, ht, List.append_assoc, hsplit.1, hsplit.2, hv, hws2,
    string_mk_data, hmult]
  rfl

lemma parseBytesString_iff {t : String} {q : ℚ} :
    parseBytesString t = some q ↔ BytesGrammar t q := by
  constructor
  · intro h
    rw [parseBytesString] at h
    rcases hv : parseSignedDec (t.data.takeWhile isNumChar) with _ | v <;> rw [hv] at h
    · exact absurd h (by simp)
    rcases hm : bytesMultiplier
        (String.mk ((t.data.dropWhile isNumChar).dropWhile Char.isWhitespace)) with _ | m <;>
      rw [hm] at h
    · exact absurd h (by simp)
    have h3 : q = v * m := by
      have h4 : v * m = q := by simpa using h
      exact h4.symm
    refine ⟨t.data.takeWhile isNumChar,
      (t.data.dropWhile isNumChar).takeWhile Char.isWhitespace,
      String.mk ((t.data.dropWhile isNumChar).dropWhile Char.isWhitespace), m, v,
      ?_, all_takeWhile _ _, ?_, sval_of_parseSignedDec hv, h3⟩
    · have hred : (String.mk ((t.data.dropWhile isNumChar).dropWhile Char.isWhitespace)).data
          = (t.data.dropWhile isNumChar).dropWhile Char.isWhitespace := rfl
      rw [List.append_assoc, hred, List.takeWhile_append_dropWhile,
        List.takeWhile_append_dropWhile]
    · rcases bytesMultiplier_cases hm with h | h | h | h | h | h | h | h | h | h <;>
        (obtain ⟨h1, h2⟩ := h
         simp [bytesUnitTable, h1, h2])
  · rintro ⟨body, ws, u, m, v, ht, hws, hmem, hsv, rfl⟩
    have hv := parseSignedDec_of_sval hsv
    have hall := parseSignedDec_numChar hv
    have hcases : (u = "b" ∧ m = 1) ∨ (u = "kb" ∧ m = 1000) ∨ (u = "mb" ∧ m = 1000000) ∨
        (u = "gb" ∧ m = 1000000000) ∨ (u = "tb" ∧ m = 1000000000000) ∨
        (u = "kib" ∧ m = 1024) ∨ (u = "mib" ∧ m = 1048576) ∨
        (u = "gib" ∧ m = 1073741824) ∨ (u = "tib" ∧ m = 1099511627776) ∨
        (u = "" ∧ m = 1) := by
      simpa [bytesUnitTable, Prod.ext_iff] using hmem
    rcases hcases with h | h | h | h | h | h | h | h | h | h <;>
      (obtain ⟨rfl, rfl⟩ := h
       exact parseBytesString_build hall hv hws (by decide) (by decide) (by rfl) ht)

lemma except_bind_error {α β : Type} (e : VError) (f : α → Except VError β) :
    ((Except.error e : Except VError α) >>= f) = Except.error e := rfl

lemma except_bind_ok {α β : Type} (a : α) (f : α → Except VError β) :
    ((Except.ok a : Except VError α) >>= f) = f a := rfl

lemma except_map_error_iff {α β : Type} {f : α → β} {x : Except VError α} {e : VError} :
    x.map f = .error e ↔ x = .error e := by
  cases x <;> simp [Except.map]

lemma verror_path_eq {X : Type} {path : String} {k : ErrKind} {e : VError}
    (h : (Except.error ⟨path, k⟩ : Except VError X) = .error e) : e.path = path := by
  injection h with h2
  rw [← h2]

lemma err_path_refl {X : Type} {path : String} {k : ErrKind} {e : VError}
    (h : (Except.error ⟨path, k⟩ : Except VError X) = .error e) : ∃ t, e.path = path ++ t :=
  ⟨"", by rw [verror_path_eq h, String.append_empty]⟩

lemma parseNumRaw_err_path {raw : JSValue} {path : String} {e : VError}
    (h : parseNumRaw raw path = .error e) : e.path = path := by
  unfold parseNumRaw at h
  repeat' split at h
  all_goals first
    | exact verror_path_eq h
    | exact Except.noConfusion h

lemma parseDurationRaw_err_path {raw : JSValue} {path : String} {e : VError}
    (h : parseDurationRaw raw path = .error e) : e.path = path := by
  unfold parseDurationRaw at h
  repeat' split at h
  all_goals first
    | exact verror_path_eq h
    | exact Except.noConfusion h

lemma parseBytesRaw_err_path {raw : JSValue} {path : String} {e : VError}
    (h : parseBytesRaw raw path = .error e) : e.path = path := by
  unfold parseBytesRaw at h
  repeat' split at h
  all_goals first
    | exact verror_path_eq h
    | exact Except.noConfusion h

lemma splitListRaw_err_path {sep : Option String} {trim : Option Bool} {raw : JSValue}
    {path : String} {e : VError} (h : splitListRaw sep trim raw path = .error e) :
    e.path = path := by
  unfold splitListRaw at h
  repeat' split at h
  all_goals first
    | exact verror_path_eq h
    | exact Except.noConfusion h

lemma validateSecret_err_path {mnl mxl mnc : Option ℚ} {raw : JSValue} {path : String}
    {e : VError} (h : validateSecret mnl mxl mnc raw path = .error e) : e.path = path := by
  unfold validateSecret at h
  repeat' split at h
  all_goals first
    | exact verror_path_eq h
    | exact Except.noConfusion h

lemma validateItems_err_path {f : JSValue → String → Except VError JSValue}
    (hf : ∀ v p e, f v p = .error e → ∃ t, e.path = p ++ t) :
    ∀ (items : List JSValue) (i : ℕ) (path : String) (e : VError),
      validateItems f i items path = .error e → ∃ t, e.path = path ++ t := by
  intro items
  induction items with
  | nil =>
      intro i path e h
      exact absurd h (by simp [validateItems])
  | cons x xs ih =>
      intro i path e h
      rw [validateItems] at h
      cases hfx : f x (path ++ "[" ++ toString i ++ "]") with
      | error e2 =>
          rw [hfx, except_bind_error] at h
          injection h with h2
          subst h2
          rcases hf _ _ _ hfx with ⟨t, ht⟩
          exact ⟨"[" ++ toString i ++ "]" ++ t, by rw [ht]; simp [String.append_assoc]⟩
      | ok v =>
          rw [hfx, except_bind_ok] at h
          cases hrec : validateItems f (i + 1) xs path with
          | error e2 =>
              rw [hrec, except_bind_error] at h
              injection h with h2
              subst h2
              exact ih _ _ _ hrec
          | ok vs =>
              rw [hrec, except_bind_ok] at h
              exact Except.noConfusion h

lemma validateValue_err_path :
    ∀ (rule : VRule) (raw : JSValue) (path : String) (e : VError),
      validateValue rule raw path = .error e → ∃ t, e.path = path ++ t := by
  intro rule
  induction rule with
  | str r d trim pat mnl mxl =>
      intro raw path e h
      cases raw <;> simp only [validateValue] at h <;>
        (repeat' split at h) <;>
        first
          | exact err_path_refl h
          | exact Except.noConfusion h
  | num kind r d pos neg mn mx rg =>
      intro raw path e h
      simp only [validateValue] at h
      cases hp : parseNumRaw raw path with
      | error e2 =>
          rw [hp] at h
          injection h with h2
          subst h2
          exact ⟨"", by rw [parseNumRaw_err_path hp, String.append_empty]⟩
      | ok n =>
          simp only [hp] at h
          repeat' split at h
          all_goals first
            | exact err_path_refl h
            | exact Except.noConfusion h
  | duration r d mn mx =>
      intro raw path e h
      simp only [validateValue] at h
      cases hp : parseDurationRaw raw path with
      | error e2 =>
          rw [hp] at h
          injection h with h2
          subst h2
          exact ⟨"", by rw [parseDurationRaw_err_path hp, String.append_empty]⟩
      | ok n =>
          simp only [hp] at h
          repeat' split at h
          all_goals first
            | exact err_path_refl h
            | exact Except.noConfusion h
  | bytes r d mn mx =>
      intro raw path e h
      simp only [validateValue] at h
      cases hp : parseBytesRaw raw path with
      | error e2 =>
          rw [hp] at h
          injection h with h2
          subst h2
          exact ⟨"", by rw [parseBytesRaw_err_path hp, String.append_empty]⟩
      | ok n =>
          simp only [hp] at h
          repeat' split at h
          all_goals first
            | exact err_path_refl h
            | exact Except.noConfusion h
  | arr itemType r d ih =>
      intro raw path e h
      cases raw <;> simp only [validateValue] at h
      case str s =>
        repeat' split at h
        all_goals first
          | exact err_path_refl h
          | exact Except.noConfusion h
          | exact validateItems_err_path ih _ _ _ _ (except_map_error_iff.mp h)
      case arr items =>
        exact validateItems_err_path ih _ _ _ _ (except_map_error_iff.mp h)
      all_goals exact err_path_refl h
  | list itemType r d sep trim unique ih =>
      intro raw path e h
      simp only [validateValue] at h
      cases hs : splitListRaw sep trim raw path with
      | error e2 =>
          rw [hs] at h
          injection h with h2
          subst h2
          exact ⟨"", by rw [splitListRaw_err_path hs, String.append_empty]⟩
      | ok items =>
          simp only [hs] at h
          cases hv : validateItems (validateValue itemType) 0 items path with
          | error e2 =>
              simp only [hv] at h
              injection h with h2
              subst h2
              exact validateItems_err_path ih _ _ _ _ hv
          | ok parsedList =>
              simp only [hv] at h
              split at h
              · exact err_path_refl h
              · exact Except.noConfusion h
  | port r d =>
      intro raw path e h
      simp only [validateValue] at h
      repeat' split at h
      all_goals first
        | exact err_path_refl h
        | exact Except.noConfusion h
  | secret r d mnl mxl mnc =>
      intro raw path e h
      simp only [validateValue] at h
      exact ⟨"", by rw [validateSecret_err_path h, String.append_empty]⟩

lemma validateItems_first_error {f : JSValue → String → Except VError JSValue} :
    ∀ (firsts : List JSValue) (i0 : ℕ) (bad : JSValue) (rest : List JSValue)
      (path : String) (e : VError),
      (∀ j : Fin firsts.length,
        ∃ v, f (firsts.get j) (path ++ "[" ++ toString (i0 + j.val) ++ "]") = .ok v) →
      f bad (path ++ "[" ++ toString (i0 + firsts.length) ++ "]") = .error e →
      validateItems f i0 (firsts ++ bad :: rest) path = .error e := by
  intro firsts
  induction firsts with
  | nil =>
      intro i0 bad rest path e hok hbad
      rw [List.nil_append, validateItems]
      simp only [List.length_nil, Nat.add_zero] at hbad
      rw [hbad, except_bind_error]
  | cons x xs ih =>
      intro i0 bad rest path e hok hbad
      rw [List.cons_append, validateItems]
      obtain ⟨v, hv⟩ := hok ⟨0, by simp⟩
      simp only [List.get, Nat.add_zero] at hv
      rw [hv, except_bind_ok]
      have hok2 : ∀ j : Fin xs.length,
          ∃ w, f (xs.get j) (path ++ "[" ++ toString ((i0 + 1) + j.val) ++ "]") = .ok w := by
        intro j
        obtain ⟨w, hw⟩ := hok ⟨j.val + 1,
          by simp only [List.length_cons]; exact Nat.succ_lt_succ j.isLt⟩
        refine ⟨w, ?_⟩
        have harith : i0 + (j.val + 1) = (i0 + 1) + j.val := by omega
        simpa [List.get, harith] using hw
      have hbad2 : f bad (path ++ "[" ++ toString ((i0 + 1) + xs.length) ++ "]") = .error e := by
        have harith : i0 + (x :: xs).length = (i0 + 1) + xs.length := by
          simp only [List.length_cons]
          omega
        rw [harith] at hbad
        exact hbad
      rw [ih (i0 + 1) bad rest path e hok2 hbad2, except_bind_error]

lemma parseAndValidate_first_error :
    ∀ (pre post : List (String × VRule)) {env : String → Option String} {key : String}
      {rule : VRule} {e : VError},
      (∀ kr ∈ pre, ∃ o, resolveEntry kr.1 kr.2 env = Except.ok o) →
      resolveEntry key rule env = .error e →
      parseAndValidate (pre ++ (key, rule) :: post) env = .error e := by
  intro pre
  induction pre with
  | nil =>
      intro post env key rule e hok herr
      rw [List.nil_append, parseAndValidate, herr]
  | cons kr rest ih =>
      intro post env key rule e hok herr
      obtain ⟨k, r⟩ := kr
      obtain ⟨o, ho⟩ := hok (k, r) (by simp)
      have htail := ih post (fun kr hm => hok kr (List.mem_cons_of_mem _ hm)) herr
      simp only [List.cons_append, parseAndValidate, ho, List.append_eq, htail]

lemma except_map_some_ne_ok_none (x : Except VError JSValue) :
    x.map some ≠ .ok none := by
  cases x <;> simp [Except.map]

lemma resolveMissing_ok_none_iff {key : String} {rule : VRule} :
    resolveMissing key rule = .ok none ↔
      (rule.requiredOpt = some false ∧ rule.defaultValueOpt = none) := by
  unfold resolveMissing
  split
  · rename_i hcond
    simp only [Bool.and_eq_true, Bool.not_eq_true', beq_eq_false_iff_ne,
      Option.isNone_iff_eq_none] at hcond
    constructor
    · intro h
      exact absurd h (by simp)
    · rintro ⟨h1, h2⟩
      exact absurd h1 hcond.1
  · rename_i hcond
    simp only [Bool.and_eq_true, Bool.not_eq_true', beq_eq_false_iff_ne,
      Option.isNone_iff_eq_none, not_and] at hcond
    cases hd : rule.defaultValueOpt with
    | some dv =>
        constructor
        · intro h
          exact absurd h (except_map_some_ne_ok_none _)
        · rintro ⟨h1, h2⟩
          exact absurd h2 (by simp)
    | none =>
        have hreq : rule.requiredOpt = some false := by
          by_cases hb : rule.requiredOpt = some false
          · exact hb
          · exact absurd hd (hcond hb)
        simp [hreq]

lemma resolveEntry_ok_none_iff {key : String} {rule : VRule} {env : String → Option String} :
    resolveEntry key rule env = .ok none ↔
      (rule.requiredOpt = some false ∧ rule.defaultValueOpt = none ∧
        (env key = none ∨ env key = some "")) := by
  cases he : env key with
  | none =>
      simp only [resolveEntry, he]
      rw [resolveMissing_ok_none_iff]
      simp
  | some s =>
      by_cases hs : s = ""
      · subst hs
        simp only [resolveEntry, he]
        rw [if_true, resolveMissing_ok_none_iff]
        simp
      · simp only [resolveEntry, he, if_neg hs]
        constructor
        · intro h
          exact absurd h (except_map_some_ne_ok_none _)
        · rintro ⟨h1, h2, h3 | h3⟩
          · exact absurd h3 (by simp)
          · injection h3 with h4
            exact absurd h4 hs


lemma lookupValue_cons_ne {k key : String} {v : JSValue} {tail : List (String × JSValue)}
    (h : k ≠ key) : lookupValue ((k, v) :: tail) key = lookupValue tail key := by
  have hbe : (k == key) = false := beq_eq_false_iff_ne.mpr h
  simp [lookupValue, List.find?_cons, hbe]

lemma parseAndValidate_ok_inv {k : String} {r : VRule} {rest : List (String × VRule)}
    {env : String → Option String} {m : List (String × JSValue)}
    (h : parseAndValidate ((k, r) :: rest) env = .ok m) :
    ∃ o tail, resolveEntry k r env = .ok o ∧ parseAndValidate rest env = .ok tail ∧
      m = (match o with | some v => (k, v) :: tail | none => tail) := by
  rw [parseAndValidate] at h
  cases hre : resolveEntry k r env with
  | error e =>
      simp only [hre] at h
      exact absurd h (by simp)
  | ok o =>
      simp only [hre] at h
      cases htail : parseAndValidate rest env with
      | error e =>
          simp only [htail] at h
          exact absurd h (by simp)
      | ok tail =>
          simp only [htail] at h
          injection h with h2
          exact ⟨o, tail, rfl, rfl, h2.symm⟩

lemma parseAndValidate_not_mem_lookup :
    ∀ (schema : List (String × VRule)) {env : String → Option String}
      {m : List (String × JSValue)} {key : String},
      parseAndValidate schema env = .ok m →
      key ∉ schema.map Prod.fst →
      lookupValue m key = none := by
  intro schema
  induction schema with
  | nil =>
      intro env m key h hmem
      rw [parseAndValidate] at h
      injection h with h2
      rw [← h2]
      rfl
  | cons kr rest ih =>
      intro env m key h hmem
      obtain ⟨k, r⟩ := kr
      obtain ⟨o, tail, hre, htail, hm⟩ := parseAndValidate_ok_inv h
      simp only [List.map_cons, List.mem_cons, not_or] at hmem
      have hne : k ≠ key := fun hc => hmem.1 hc.symm
      subst hm
      cases o with
      | some v =>
          rw [lookupValue_cons_ne hne]
          exact ih htail hmem.2
      | none => exact ih htail hmem.2

lemma parseAndValidate_entry :
    ∀ (schema : List (String × VRule)) {env : String → Option String}
      {m : List (String × JSValue)} {key : String} {rule : VRule},
      parseAndValidate schema env = .ok m →
      (schema.map Prod.fst).Nodup →
      (key, rule) ∈ schema →
      ((∃ v, resolveEntry key rule env = .ok (some v) ∧ lookupValue m key = some v) ∨
        (resolveEntry key rule env = .ok none ∧ lookupValue m key = none)) := by
  intro schema
  induction schema with
  | nil =>
      intro env m key rule h hnd hmem
      exact absurd hmem (by simp)
  | cons kr rest ih =>
      intro env m key rule h hnd hmem
      obtain ⟨k, r⟩ := kr
      obtain ⟨o, tail, hre, htail, hm⟩ := parseAndValidate_ok_inv h
      simp only [List.map_cons, List.nodup_cons] at hnd
      rcases List.mem_cons.mp hmem with heq | hmem2
      · injection heq with hk hr
        subst hk
        subst hr
        subst hm
        cases o with
        | some v =>
            refine Or.inl ⟨v, hre, ?_⟩
            simp [lookupValue, List.find?_cons]
        | none =>
            exact Or.inr ⟨hre, parseAndValidate_not_mem_lookup rest htail hnd.1⟩
      · have hkeyrest : key ∈ rest.map Prod.fst :=
          List.mem_map.mpr ⟨(key, rule), hmem2, rfl⟩
        have hne : k ≠ key := fun hc => hnd.1 (hc ▸ hkeyrest)
        subst hm
        cases o with
        | some v =>
            rw [lookupValue_cons_ne hne]
            exact ih htail hnd.2 hmem2
        | none => exact ih htail hnd.2 hmem2

lemma belowOpt_eq_false_iff {b : Option ℚ} {v : ℚ} :
    belowOpt b v = false ↔ ∀ m ∈ b, m ≤ v := by
  cases b with
  | none => simp [belowOpt]
  | some m => simp [belowOpt, not_lt]

lemma aboveOpt_eq_false_iff {b : Option ℚ} {v : ℚ} :
    aboveOpt b v = false ↔ ∀ m ∈ b, v ≤ m := by
  cases b with
  | none => simp [aboveOpt]
  | some m => simp [aboveOpt, not_lt]

/-- C10: for a `number`, `int` or `float` rule with `positive: true`, the
engine rejects the parsed value exactly when it is strictly negative, so
zero is accepted as positive; symmetrically, with `negative: true` it
rejects exactly the strictly positive values, so zero is also accepted as
negative. -/
theorem num_positive_negative_zero (kind : NumKind) (n : ℚ) (path : String)
    (hint : kind = NumKind.int → n.den = 1) :
    (validateValue (.num kind none none (some true) none none none none) (.num n) path =
      (if n < 0 then .error ⟨path, .expectedPositive⟩ else .ok (.num n))) ∧
    (validateValue (.num kind none none none (some true) none none none) (.num n) path =
      (if 0 < n then .error ⟨path, .expectedNegative⟩ else .ok (.num n))) := by
  have hi : (kind == NumKind.int && !(jsIsInteger n)) = false := by
    cases kind with
    | int =>
        have hd := hint rfl
        simp [jsIsInteger, hd]
    | number => simp
    | float => simp
  constructor
  · by_cases hn : n < 0 <;>
      simp [validateValue, parseNumRaw, hi, hn, belowOpt, aboveOpt]
  · by_cases hn : 0 < n <;>
      simp [validateValue, parseNumRaw, hi, hn, belowOpt, aboveOpt]

/-- Closed instance of `num_positive_negative_zero`: zero passes both a
`positive` and a `negative` number rule. -/
theorem num_positive_negative_zero_witness :
    validateValue (.num .number none none (some true) none none none none) (.num 0) "KEY" =
      .ok (.num 0) ∧
    validateValue (.num .number none none none (some true) none none none) (.num 0) "KEY" =
      .ok (.num 0) := by
  have h := num_positive_negative_zero NumKind.number 0 "KEY" (fun hc => by rfl)
  have h1 := h.1
  have h2 := h.2
  rw [if_neg (lt_irrefl 0)] at h1 h2
  exact ⟨h1, h2⟩

/-- C1 (modelled from the spec, see `validateSecret`): a `secret` rule on
a present raw string enforces the `minLength`/`maxLength` bounds, counts
the distinct character classes present among lowercase, uppercase, digit
and symbol, fails with the class-count error exactly when fewer than
`minClasses` classes are represented, and returns the string unchanged
otherwise. -/
theorem secret_rule_spec (mnl mxl mnc : Option ℚ) (s path : String) :
    (validateValue (.secret none none mnl mxl mnc) (.str s) path = .ok (.str s) ↔
      ((∀ m ∈ mnl, m ≤ (s.length : ℚ)) ∧ (∀ m ∈ mxl, (s.length : ℚ) ≤ m) ∧
        mnc.getD 0 ≤ (secretClassCount s : ℚ))) ∧
    ((∀ m ∈ mnl, m ≤ (s.length : ℚ)) → (∀ m ∈ mxl, (s.length : ℚ) ≤ m) →
      (secretClassCount s : ℚ) < mnc.getD 0 →
      validateValue (.secret none none mnl mxl mnc) (.str s) path =
        .error ⟨path, .secretClasses⟩) := by
  constructor
  · constructor
    · intro h
      simp only [validateValue, validateSecret] at h
      by_cases h1 : belowOpt mnl (s.length : ℚ) = true
      · rw [if_pos h1] at h
        exact absurd h (by simp)
      · rw [if_neg h1] at h
        by_cases h2 : aboveOpt mxl (s.length : ℚ) = true
        · rw [if_pos h2] at h
          exact absurd h (by simp)
        · rw [if_neg h2] at h
          by_cases h3 : decide ((secretClassCount s : ℚ) < mnc.getD 0) = true
          · rw [if_pos h3] at h
            exact absurd h (by simp)
          · refine ⟨belowOpt_eq_false_iff.mp (by simpa using h1),
              aboveOpt_eq_false_iff.mp (by simpa using h2), ?_⟩
            simp only [decide_eq_true_eq] at h3
            exact not_lt.mp h3
    · rintro ⟨h1, h2, h3⟩
      simp only [validateValue, validateSecret]
      rw [if_neg (by simp [belowOpt_eq_false_iff.mpr h1]),
        if_neg (by simp [aboveOpt_eq_false_iff.mpr h2]),
        if_neg (by simp [not_lt.mpr h3])]
  · intro h1 h2 h3
    simp only [validateValue, validateSecret]
    rw [if_neg (by simp [belowOpt_eq_false_iff.mpr h1]),
      if_neg (by simp [aboveOpt_eq_false_iff.mpr h2]),
      if_pos (by simpa using h3)]

/-- Closed instance of `secret_rule_spec`: the test-suite's strong secret
passes `{minLength: 12, minClasses: 3}`, and the all-lowercase secret
fails the class-count check. -/
theorem secret_rule_spec_witness :
    validateValue (.secret none none (some 12) none (some 3)) (.str "Str0ngSecret1!") "KEY" =
      .ok (.str "Str0ngSecret1!") ∧
    validateValue (.secret none none (some 12) none (some 3)) (.str "weakpassword") "KEY" =
      .error ⟨"KEY", .secretClasses⟩ := by
  constructor
  · refine (secret_rule_spec (some 12) none (some 3) "Str0ngSecret1!" "KEY").1.mpr
      ⟨?_, ?_, ?_⟩
    · intro m hm
      cases hm
      decide
    · intro m hm
      simp at hm
    · decide
  · refine (secret_rule_spec (some 12) none (some 3) "weakpassword" "KEY").2 ?_ ?_ ?_
    · intro m hm
      cases hm
      decide
    · intro m hm
      simp at hm
    · decide

lemma parsePortRaw_some_inv {raw : JSValue} {q : ℚ} (h : parsePortRaw raw = some q) :
    raw = .num q ∨ ∃ s, raw = .str s ∧ s.trim ≠ "" ∧ jsNumber s.trim = some q := by
  cases raw with
  | num n =>
      simp only [parsePortRaw] at h
      injection h with h2
      exact Or.inl (by rw [h2])
  | str s =>
      simp only [parsePortRaw] at h
      by_cases hs : s.trim = ""
      · rw [if_pos hs] at h
        exact absurd h (by simp)
      · rw [if_neg hs] at h
        exact Or.inr ⟨s, rfl, hs, h⟩
  | boolean b => exact absurd h (by simp [parsePortRaw])
  | null => exact absurd h (by simp [parsePortRaw])
  | arr l => exact absurd h (by simp [parsePortRaw])

lemma parsePortRaw_of_form {raw : JSValue} {n : ℚ}
    (h : raw = .num n ∨ ∃ s, raw = .str s ∧ s.trim ≠ "" ∧ jsNumber s.trim = some n) :
    parsePortRaw raw = some n := by
  rcases h with rfl | ⟨s, rfl, hs, hn⟩
  · rfl
  · simp only [parsePortRaw, if_neg hs]
    exact hn

/-- C9: a `port` rule succeeds exactly on raw numbers, and on raw strings
that are non-empty after trimming and convert with `Number`, whose value
is an integer between 0 and 65535 inclusive (so port 0 is accepted),
returning that integer; every other raw value fails with the port
error. -/
theorem port_rule_spec (raw : JSValue) (path : String) :
    ((∃ n : ℚ, validateValue (.port none none) raw path = .ok (.num n)) ∨
      validateValue (.port none none) raw path = .error ⟨path, .invalidPort⟩) ∧
    (∀ n : ℚ, validateValue (.port none none) raw path = .ok (.num n) ↔
      (n.den = 1 ∧ 0 ≤ n ∧ n ≤ 65535 ∧
        (raw = .num n ∨ ∃ s, raw = .str s ∧ s.trim ≠ "" ∧ jsNumber s.trim = some n))) := by
  cases hp : parsePortRaw raw with
  | none =>
      constructor
      · right
        simp [validateValue, hp]
      · intro n
        constructor
        · intro h
          simp [validateValue, hp] at h
        · rintro ⟨h1, h2, h3, hform⟩
          exact absurd (parsePortRaw_of_form hform) (by simp [hp])
  | some q =>
      by_cases hbad : (!(jsIsInteger q) || decide (q < 0) || decide (q > 65535)) = true
      · constructor
        · right
          simp only [validateValue, hp]
          rw [if_pos hbad]
        · intro n
          constructor
          · intro h
            simp only [validateValue, hp] at h
            rw [if_pos hbad] at h
            exact absurd h (by simp)
          · rintro ⟨h1, h2, h3, hform⟩
            have hq : q = n := by
              have h4 := parsePortRaw_of_form hform
              rw [hp] at h4
              injection h4 with h5
            subst hq
            simp only [Bool.or_eq_true, Bool.not_eq_true', decide_eq_true_eq, jsIsInteger,
              beq_eq_false_iff_ne] at hbad
            rcases hbad with (hb | hb) | hb
            · exact absurd h1 hb
            · exact absurd hb (not_lt.mpr h2)
            · exact absurd hb (not_lt.mpr h3)
      · have hgood := hbad
        simp only [Bool.or_eq_true, Bool.not_eq_true', decide_eq_true_eq, jsIsInteger,
          beq_eq_false_iff_ne, not_or, Bool.not_eq_true, beq_iff_eq, not_lt, not_not,
          ne_eq] at hgood
        constructor
        · left
          refine ⟨q, ?_⟩
          simp only [validateValue, hp]
          rw [if_neg (by simpa using hbad)]
        · intro n
          constructor
          · intro h
            simp only [validateValue, hp] at h
            rw [if_neg (by simpa using hbad)] at h
            injection h with h2
            injection h2 with h3
            subst h3
            exact ⟨hgood.1.1, hgood.1.2, hgood.2, parsePortRaw_some_inv hp⟩
          · rintro ⟨h1, h2, h3, hform⟩
            have hq : q = n := by
              have h4 := parsePortRaw_of_form hform
              rw [hp] at h4
              injection h4 with h5
            subst hq
            simp only [validateValue, hp]
            rw [if_neg (by simpa using hbad)]

/-- Closed instance of `port_rule_spec`: raw string "0" is accepted as
port 0. -/
theorem port_rule_spec_witness :
    validateValue (.port none none) (.str "0") "KEY" = .ok (.num 0) := by
  refine ((port_rule_spec (.str "0") "KEY").2 0).mpr ⟨rfl, le_refl 0, by norm_num, ?_⟩
  have ht : "0".trim = "0" := by with_unfolding_all rfl
  refine Or.inr ⟨"0", rfl, ?_, ?_⟩
  · rw [ht]
    decide
  · rw [ht]
    decide

lemma parseDurationString_empty : parseDurationString "" = none := rfl

set_option maxRecDepth 100000 in
/-- C5 (amended): duration coercion of a present string matches the
trimmed, lower-cased value against the spec grammar
`^(-?number)(ms|s|m|h)?$` (unit defaulting to `ms`), multiplies by the
fixed table, requires the result finite and inside the optional
`minMs`/`maxMs` bounds; raw "1.5h" yields 5400000 when the bounds admit
it (e.g. `{minMs: 1000, maxMs: 6000000}`) but fails the range check under
`{minMs: 1000, maxMs: 3600000}`, and raw "500" fails the range check when
`minMs` is 1000. -/
theorem duration_rule_spec :
    (∀ (mn mx : Option ℚ) (s path : String) (q : ℚ),
      validateValue (.duration none none mn mx) (.str s) path = .ok (.num q) ↔
        (DurationGrammar (s.trim.toLower) q ∧ jsFinite q = true ∧
          (∀ m ∈ mn, m ≤ q) ∧ (∀ m ∈ mx, q ≤ m))) ∧
    validateValue (.duration none none (some 1000) (some 3600000)) (.str "1.5h") "KEY" =
      .error ⟨"KEY", .durationAboveMax⟩ ∧
    validateValue (.duration none none (some 1000) (some 6000000)) (.str "1.5h") "KEY" =
      .ok (.num 5400000) ∧
    validateValue (.duration none none (some 1000) (some 3600000)) (.str "500") "KEY" =
      .error ⟨"KEY", .durationBelowMin⟩ := by
  refine ⟨?_, ?_, ?_, ?_⟩
  · intro mn mx s path q
    by_cases ht : s.trim.toLower = ""
    · constructor
      · intro h
        simp [validateValue, parseDurationRaw, ht] at h
      · rintro ⟨hg, _, _, _⟩
        have hsome := parseDurationString_iff.mpr hg
        rw [ht, parseDurationString_empty] at hsome
        exact Option.noConfusion hsome
    · cases hps : parseDurationString (s.trim.toLower) with
      | none =>
          constructor
          · intro h
            simp [validateValue, parseDurationRaw, if_neg ht, hps] at h
          · rintro ⟨hg, _, _, _⟩
            have hsome := parseDurationString_iff.mpr hg
            rw [hps] at hsome
            exact Option.noConfusion hsome
      | some q0 =>
          constructor
          · intro h
            simp only [validateValue, parseDurationRaw, if_neg ht, hps] at h
            by_cases h1 : jsFinite q0 = true
            · rw [if_neg (by simp [h1])] at h
              by_cases h2 : belowOpt mn q0 = true
              · rw [if_pos h2] at h
                exact absurd h (by simp)
              · rw [if_neg h2] at h
                by_cases h3 : aboveOpt mx q0 = true
                · rw [if_pos h3] at h
                  exact absurd h (by simp)
                · rw [if_neg h3] at h
                  injection h with hh
                  injection hh with hh2
                  subst hh2
                  exact ⟨parseDurationString_iff.mp hps, h1,
                    belowOpt_eq_false_iff.mp (Bool.eq_false_iff.mpr h2),
                    aboveOpt_eq_false_iff.mp (Bool.eq_false_iff.mpr h3)⟩
            · have hf : jsFinite q0 = false := Bool.eq_false_iff.mpr h1
              rw [if_pos (by simp [hf])] at h
              exact absurd h (by simp)
          · rintro ⟨hg, hf, hmn, hmx⟩
            have hsome := parseDurationString_iff.mpr hg
            rw [hps] at hsome
            injection hsome with hq
            subst hq
            simp only [validateValue, parseDurationRaw, if_neg ht, hps]
            rw [if_neg (by simp [hf]), if_neg (by simp [belowOpt_eq_false_iff.mpr hmn]),
              if_neg (by simp [aboveOpt_eq_false_iff.mpr hmx])]
  · with_unfolding_all rfl
  · with_unfolding_all rfl
  · with_unfolding_all rfl

set_option maxRecDepth 100000 in
/-- C5 counterexample (closed): under `{minMs: 1000, maxMs: 3600000}`
the raw string "1.5h" resolves to 5400000 ms, which exceeds `maxMs`, so
the engine throws the upper-bound range error instead of returning
5400000. -/
theorem duration_example_false :
    validateValue (.duration none none (some 1000) (some 3600000)) (.str "1.5h") "KEY" =
      .error ⟨"KEY", .durationAboveMax⟩ ∧
    validateValue (.duration none none (some 1000) (some 3600000)) (.str "1.5h") "KEY" ≠
      .ok (.num 5400000) := by
  have h1 : validateValue (.duration none none (some 1000) (some 3600000)) (.str "1.5h") "KEY" =
      .error ⟨"KEY", .durationAboveMax⟩ := by with_unfolding_all rfl
  exact ⟨h1, fun hc => Except.noConfusion (h1.symm.trans hc)⟩

/-- Closed instance of `duration_rule_spec`: the accepted coercion of
"1.5h" satisfies the spec grammar with unit `h` and value 3/2. -/
theorem duration_rule_spec_witness :
    DurationGrammar ("1.5h".trim.toLower) 5400000 ∧ jsFinite 5400000 = true ∧
      (∀ m ∈ (some (1000 : ℚ) : Option ℚ), m ≤ 5400000) ∧
      (∀ m ∈ (some (6000000 : ℚ) : Option ℚ), (5400000 : ℚ) ≤ m) :=
  (duration_rule_spec.1 (some 1000) (some 6000000) "1.5h" "KEY" 5400000).mp
    duration_rule_spec.2.2.1

lemma parseBytesString_empty : parseBytesString "" = none := rfl

set_option maxRecDepth 100000 in
/-- C6: byte-size coercion of a present string matches the trimmed,
lower-cased value against the spec grammar
`^(-?number)\s*(b|kb|mb|gb|tb|kib|mib|gib|tib)?$`, multiplies decimal
units by powers of 1000 and binary `*ib` units by powers of 1024, and
requires the result finite, a whole number and non-negative before the
optional `min`/`max` bounds; raw "1.5GiB" yields 1610612736 and raw
"0.1B" fails the whole-number requirement. -/
theorem bytes_rule_spec :
    (∀ (mn mx : Option ℚ) (s path : String) (q : ℚ),
      validateValue (.bytes none none mn mx) (.str s) path = .ok (.num q) ↔
        (BytesGrammar (s.trim.toLower) q ∧ jsFinite q = true ∧ q.den = 1 ∧ 0 ≤ q ∧
          (∀ m ∈ mn, m ≤ q) ∧ (∀ m ∈ mx, q ≤ m))) ∧
    validateValue (.bytes none none (some 1024) none) (.str "1.5GiB") "KEY" =
      .ok (.num 1610612736) ∧
    validateValue (.bytes none none none none) (.str "0.1B") "KEY" =
      .error ⟨"KEY", .bytesNotWhole⟩ := by
  refine ⟨?_, ?_, ?_⟩
  · intro mn mx s path q
    by_cases ht : s.trim.toLower = ""
    · constructor
      · intro h
        simp [validateValue, parseBytesRaw, ht] at h
      · rintro ⟨hg, _, _, _, _, _⟩
        have hsome := parseBytesString_iff.mpr hg
        rw [ht, parseBytesString_empty] at hsome
        exact Option.noConfusion hsome
    · cases hps : parseBytesString (s.trim.toLower) with
      | none =>
          constructor
          · intro h
            simp [validateValue, parseBytesRaw, if_neg ht, hps] at h
          · rintro ⟨hg, _, _, _, _, _⟩
            have hsome := parseBytesString_iff.mpr hg
            rw [hps] at hsome
            exact Option.noConfusion hsome
      | some q0 =>
          constructor
          · intro h
            simp only [validateValue, parseBytesRaw, if_neg ht, hps] at h
            by_cases h1 : jsFinite q0 = true
            · rw [if_neg (by simp [h1])] at h
              by_cases h2 : jsIsInteger q0 = true
              · rw [if_neg (by simp [h2])] at h
                by_cases h3 : decide (q0 < 0) = true
                · rw [if_pos h3] at h
                  exact absurd h (by simp)
                · rw [if_neg h3] at h
                  by_cases h4 : decide (q0 < mn.getD 0) = true
                  · rw [if_pos h4] at h
                    exact absurd h (by simp)
                  · rw [if_neg h4] at h
                    by_cases h5 : aboveOpt mx q0 = true
                    · rw [if_pos h5] at h
                      exact absurd h (by simp)
                    · rw [if_neg h5] at h
                      injection h with hh
                      injection hh with hh2
                      subst hh2
                      simp only [decide_eq_true_eq] at h3 h4
                      refine ⟨parseBytesString_iff.mp hps, h1, ?_, not_lt.mp h3, ?_,
                        aboveOpt_eq_false_iff.mp (Bool.eq_false_iff.mpr h5)⟩
                      · simpa [jsIsInteger] using h2
                      · intro m hm
                        cases hm
                        simpa using not_lt.mp h4
              · have hf : jsIsInteger q0 = false := Bool.eq_false_iff.mpr h2
                rw [if_pos (by simp [hf])] at h
                exact absurd h (by simp)
            · have hf : jsFinite q0 = false := Bool.eq_false_iff.mpr h1
              rw [if_pos (by simp [hf])] at h
              exact absurd h (by simp)
          · rintro ⟨hg, hf, hden, hpos, hmn, hmx⟩
            have hsome := parseBytesString_iff.mpr hg
            rw [hps] at hsome
            injection hsome with hq
            subst hq
            have hmin : ¬(decide (q0 < mn.getD 0) = true) := by
              simp only [decide_eq_true_eq, not_lt]
              cases mn with
              | none => simpa using hpos
              | some m => simpa using hmn m rfl
            simp only [validateValue, parseBytesRaw, if_neg ht, hps]
            rw [if_neg (by simp [hf]), if_neg (by simp [jsIsInteger, hden]),
              if_neg (by simp [not_lt.mpr hpos]), if_neg hmin,
              if_neg (by simp [aboveOpt_eq_false_iff.mpr hmx])]
  · with_unfolding_all rfl
  · with_unfolding_all rfl

/-- Closed instance of `bytes_rule_spec`: the accepted coercion of
"1.5GiB" satisfies the spec grammar with the binary unit `gib`. -/
theorem bytes_rule_spec_witness :
    BytesGrammar ("1.5GiB".trim.toLower) 1610612736 ∧ jsFinite 1610612736 = true ∧
      (1610612736 : ℚ).den = 1 ∧ (0 : ℚ) ≤ 1610612736 ∧
      (∀ m ∈ (some (1024 : ℚ) : Option ℚ), m ≤ 1610612736) ∧
      (∀ m ∈ (none : Option ℚ), (1610612736 : ℚ) ≤ m) :=
  (bytes_rule_spec.1 (some 1024) none "1.5GiB" "KEY" 1610612736).mp
    bytes_rule_spec.2.1

/-- C7: when the item at index `i` of an `array` or `list` rule fails to
coerce (every earlier item succeeding), the raised error is that item's
error and its path extends the enclosing entry's path with the index,
i.e. `key[i]`. -/
theorem composite_item_error_path (itemType : VRule) (sep : Option String)
    (trm unq : Option Bool) (firsts : List JSValue) (bad : JSValue) (rest : List JSValue)
    (path : String) (e : VError)
    (hok : ∀ j : Fin firsts.length,
      ∃ v, validateValue itemType (firsts.get j) (path ++ "[" ++ toString j.val ++ "]") = .ok v)
    (hbad : validateValue itemType bad
      (path ++ "[" ++ toString firsts.length ++ "]") = .error e) :
    validateValue (.arr itemType none none) (.arr (firsts ++ bad :: rest)) path = .error e ∧
    validateValue (.list itemType none none sep trm unq) (.arr (firsts ++ bad :: rest)) path =
      .error e ∧
    ∃ t, e.path = path ++ "[" ++ toString firsts.length ++ "]" ++ t := by
  have hok0 : ∀ j : Fin firsts.length,
      ∃ v, validateValue itemType (firsts.get j)
        (path ++ "[" ++ toString (0 + j.val) ++ "]") = .ok v := by
    intro j
    simpa [Nat.zero_add] using hok j
  have hbad0 : validateValue itemType bad
      (path ++ "[" ++ toString (0 + firsts.length) ++ "]") = .error e := by
    simpa [Nat.zero_add] using hbad
  have hit := validateItems_first_error firsts 0 bad rest path e hok0 hbad0
  refine ⟨?_, ?_, ?_⟩
  · simp [validateValue, hit, Except.map]
  · simp only [validateValue, splitListRaw, hit]
  · rcases validateValue_err_path itemType bad _ e hbad with ⟨t, ht⟩
    exact ⟨t, by rw [ht]⟩

/-- Closed instance of `composite_item_error_path`: the failing item "x"
at index 0 of an int-array reports path `KEY[0]`. -/
theorem composite_item_error_path_witness :
    validateValue (.arr (.num .int none none none none none none none) none none)
      (.arr [JSValue.str "x"]) "KEY" = .error ⟨"KEY[0]", .expectedNumber⟩ ∧
    ∃ t, ("KEY[0]" : String) = "KEY" ++ "[" ++ toString (0 : ℕ) ++ "]" ++ t := by
  have h := composite_item_error_path (.num .int none none none none none none none) none
    none none ([] : List JSValue) (JSValue.str "x") [] "KEY" ⟨"KEY[0]", .expectedNumber⟩
    (fun j => absurd j.isLt (by simp)) (by with_unfolding_all rfl)
  exact ⟨h.1, by simpa using h.2.2⟩

/-- C8: for a `list` rule with `unique: true` the uniqueness check runs
only after every item has coerced successfully, so an item coercion error
always propagates and a uniqueness violation is never reported first;
and the duplicate raw "a,a" for a unique list of strings fails with the
uniqueness error. -/
theorem list_unique_after_items (itemType : VRule) (sep : Option String) (trm : Option Bool) :
    (∀ (items : List JSValue) (path : String) (e : VError),
      validateItems (validateValue itemType) 0 items path = .error e →
      validateValue (.list itemType none none sep trm (some true)) (.arr items) path =
        .error e) ∧
    validateValue (.list (.str none none none none none none) none none none none (some true))
      (.str "a,a") "KEY" = .error ⟨"KEY", .listNotUnique⟩ := by
  constructor
  · intro items path e hit
    simp only [validateValue, splitListRaw, hit]
  · with_unfolding_all rfl

/-- Closed instance of `list_unique_after_items`: raw items that both
repeat and fail int coercion produce the item type error at `KEY[0]`,
not the uniqueness error. -/
theorem list_unique_after_items_witness :
    validateValue (.list (.num .int none none none none none none none) none none none none
      (some true)) (.arr [JSValue.str "x", JSValue.str "x"]) "KEY" =
      .error ⟨"KEY[0]", .expectedNumber⟩ :=
  (list_unique_after_items (.num .int none none none none none none none) none none).1
    [JSValue.str "x", JSValue.str "x"] "KEY" ⟨"KEY[0]", .expectedNumber⟩
    (by with_unfolding_all rfl)

/-- C2: a schema entry whose raw value is `undefined` or the empty string,
with `required` not set to `false` and no `defaultValue`, makes
construction fail with the missing-required error that identifies the key
(once the entries declared before it have resolved); the failed
construction returns no mapping, so no value is stored for the key. -/
theorem missing_required_fails (pre post : List (String × VRule))
    (env : String → Option String) (key : String) (rule : VRule)
    (hpre : ∀ kr ∈ pre, ∃ o, resolveEntry kr.1 kr.2 env = Except.ok o)
    (hmissing : env key = none ∨ env key = some "")
    (hreq : rule.requiredOpt ≠ some false)
    (hdv : rule.defaultValueOpt = none) :
    parseAndValidate (pre ++ (key, rule) :: post) env = .error ⟨key, .missingRequired⟩ := by
  have hcond : (!(rule.requiredOpt == some false) && rule.defaultValueOpt.isNone) = true := by
    simp [hdv, beq_eq_false_iff_ne.mpr hreq]
  have hre : resolveEntry key rule env = .error ⟨key, .missingRequired⟩ := by
    rcases hmissing with hm | hm
    · simp only [resolveEntry, hm, resolveMissing, if_pos hcond]
    · simp only [resolveEntry, hm]
      rw [if_true]
      simp only [resolveMissing, if_pos hcond]
  exact parseAndValidate_first_error pre post hpre hre

/-- Closed instance of `missing_required_fails`: an absent required int
entry fails construction with the missing-required error for its key. -/
theorem missing_required_fails_witness :
    parseAndValidate [("A", .num .int none none none none none none none)] (fun _ => none) =
      .error ⟨"A", .missingRequired⟩ :=
  missing_required_fails [] [] (fun _ => none) "A"
    (.num .int none none none none none none none)
    (fun _ hm => absurd hm (by simp)) (Or.inl rfl) (by simp [VRule.requiredOpt]) rfl

/-- C3: schema entries are resolved strictly in declaration order, and the
first failure raised anywhere — whatever error the failing entry's
coercion produced, including errors from recursive array/list item
coercion — aborts resolution: the construction returns exactly that
error, and the entries after the failing one never contribute (the result
is identical for every suffix of later entries). -/
theorem declaration_order_fail_fast (pre post post2 : List (String × VRule))
    (env : String → Option String) (key : String) (rule : VRule) (e : VError)
    (hpre : ∀ kr ∈ pre, ∃ o, resolveEntry kr.1 kr.2 env = Except.ok o)
    (herr : resolveEntry key rule env = .error e) :
    parseAndValidate (pre ++ (key, rule) :: post) env = .error e ∧
    parseAndValidate (pre ++ (key, rule) :: post) env =
      parseAndValidate (pre ++ (key, rule) :: post2) env := by
  have h1 := parseAndValidate_first_error pre post hpre herr
  have h2 := parseAndValidate_first_error pre post2 hpre herr
  exact ⟨h1, h1.trans h2.symm⟩

/-- Closed instance of `declaration_order_fail_fast`: the failing port
entry "B" yields the construction's error even though entry "C" follows
it. -/
theorem declaration_order_fail_fast_witness :
    parseAndValidate
      [("A", .num .int none none none none none none none), ("B", .port none none),
        ("C", .port none none)]
      (fun k => if k = "A" then some "7" else some "70000") = .error ⟨"B", .invalidPort⟩ := by
  have h := declaration_order_fail_fast
    [("A", .num .int none none none none none none none)] [("C", .port none none)] []
    (fun k => if k = "A" then some "7" else some "70000") "B" (.port none none)
    ⟨"B", .invalidPort⟩ ?hpre ?herr
  · exact h.1
  case hpre =>
    intro kr hm
    have hkr : kr = ("A", .num .int none none none none none none none) := by simpa using hm
    subst hkr
    exact ⟨some (.num 7), by with_unfolding_all rfl⟩
  case herr => with_unfolding_all rfl

/-- C4: after a successful construction, every schema key either holds the
entry's resolved value (the coerced raw value or the coerced default) or
is absent from the mapping, and it is absent exactly when the rule is
non-required, has no default, and the raw value was missing; looking up
such an absent key yields `none` rather than an error. -/
theorem validated_mapping_invariant (schema : List (String × VRule))
    (env : String → Option String) (m : List (String × JSValue)) (key : String) (rule : VRule)
    (hok : parseAndValidate schema env = .ok m)
    (hnd : (schema.map Prod.fst).Nodup)
    (hmem : (key, rule) ∈ schema) :
    (lookupValue m key = none ↔
      (rule.requiredOpt = some false ∧ rule.defaultValueOpt = none ∧
        (env key = none ∨ env key = some ""))) ∧
    (∀ v, lookupValue m key = some v → resolveEntry key rule env = .ok (some v)) := by
  rcases parseAndValidate_entry schema hok hnd hmem with ⟨v, hre, hlv⟩ | ⟨hre, hlv⟩
  · constructor
    · constructor
      · intro h
        rw [hlv] at h
        exact absurd h (by simp)
      · intro hrhs
        have hcontra := hre.symm.trans (resolveEntry_ok_none_iff.mpr hrhs)
        injection hcontra with h2
        exact absurd h2 (by simp)
    · intro w hw
      rw [hlv] at hw
      injection hw with h2
      rw [← h2]
      exact hre
  · constructor
    · exact ⟨fun _ => resolveEntry_ok_none_iff.mp hre, fun _ => hlv⟩
    · intro w hw
      rw [hlv] at hw
      exact absurd hw (by simp)

/-- Closed instance of `validated_mapping_invariant`: the value stored for
the defaulted entry "A" is exactly that entry's resolution. -/
theorem validated_mapping_invariant_witness :
    resolveEntry "A" (.num .int none (some (.num 9)) none none none none none)
      (fun _ => none) = .ok (some (.num 9)) := by
  have h := validated_mapping_invariant
    [("A", .num .int none (some (.num 9)) none none none none none)] (fun _ => none)
    [("A", JSValue.num 9)] "A" (.num .int none (some (.num 9)) none none none none none)
    (by with_unfolding_all rfl) (by simp) (by simp)
  exact h.2 (JSValue.num 9) (by with_unfolding_all rfl)

end EnvTs
